import Mathlib

/-!
Shallow embedding of the FlameChart repository (TypeScript + d3), covering
`src/flamechart/flamechart.ts`, `src/flamechart/flamechartUtils.ts` and
`src/flamechart/color.ts`.  JS strings are modeled as `List Char` and JS
numbers as `ℚ`.  Mutable d3 hierarchy nodes are modeled as a pure rose tree
carrying the per-node record, with tree positions addressed by child-index
paths (`List ℕ`); the pointer identity test `===` of the source becomes
path equality, which is faithful because every node of a tree has exactly
one path from the root.
-/

namespace FlameChart

/-- JS strings, modeled as lists of characters. -/
abbrev Str := List Char

/-- Paths addressing nodes of a rose tree by child indices. -/
abbrev Path := List Nat

/-- JS `String.prototype.toLocaleLowerCase`, modeled character-wise on the
ASCII range (the only range exercised by the repository's data). -/
def jsLowerChar (c : Char) : Char :=
  if 'A' ≤ c ∧ c ≤ 'Z' then Char.ofNat (c.toNat + 32) else c

/-- Lower-case an entire modeled string. -/
def jsLower (s : Str) : Str := s.map jsLowerChar

/-- First index (from the front of `hay`) at which `pat` occurs, if any:
the search core of JS `String.prototype.indexOf`. -/
def idxFrom (pat : Str) : Str → Option Nat
  | [] => if pat.isPrefixOf ([] : Str) then some 0 else none
  | c :: t => if pat.isPrefixOf (c :: t) then some 0 else (idxFrom pat t).map (· + 1)

/-- JS `hay.indexOf(pat)`: the first occurrence index, or `-1`. -/
def jsIndexOf (hay pat : Str) : Int :=
  match idxFrom pat hay with
  | some n => (n : Int)
  | none => -1

/-- JS `ToIntegerOrInfinity` on a finite number: truncation toward zero. -/
def jsTrunc (q : ℚ) : Int :=
  if 0 ≤ q then ⌊q⌋ else ⌈q⌉

/-- The clamped end index used by JS `String.prototype.slice(0, e)`:
a negative `e` counts from the end of the string. -/
def jsSliceEnd (len : Nat) (e : Int) : Nat :=
  if e < 0 then ((len : Int) + e).toNat else min e.toNat len

/-- JS `s.slice(0, e)` on the char-list model. -/
def jsSlice0 (s : Str) (e : Int) : Str :=
  s.take (jsSliceEnd s.length e)

/-- JS `Math.round`: round half toward positive infinity. -/
def jsRound (q : ℚ) : Int := ⌊q + 1/2⌋

/-- JS `s.split(sep)` for a one-character separator. -/
def splitOnChar (sep : Char) : Str → List Str
  | [] => [[]]
  | c :: t =>
    let r := splitOnChar sep t
    if c = sep then [] :: r
    else
      match r with
      | [] => [[c]]
      | h :: rs => (c :: h) :: rs

/-- The backtick character (code point 96) used by `Color.colorHash` to strip
module names. -/
def backtickChar : Char := Char.ofNat 96

/-- color.ts `MAX_CHAR`: the hash loop breaks once the index exceeds it, so
exactly the first `MAX_CHAR + 1 = 7` characters are consumed. -/
def MAX_CHAR : Nat := 6

/-- The accumulator loop of `Color.generateHash`: folds characters with a
geometrically decaying weight (factor 0.70), hashing `charCode % 10`. -/
def hashAux : Str → ℚ → ℚ → ℚ → ℚ × ℚ
  | [], _, hash, maxHash => (hash, maxHash)
  | c :: cs, weight, hash, maxHash =>
    hashAux cs (weight * (7/10)) (hash + weight * ((c.toNat % 10 : Nat) : ℚ))
      (maxHash + weight * 9)

/-- color.ts `Color.generateHash`: a vector in `[0,1]` hashed from the first
seven characters of the name (`if (name)` guard: the empty string yields 0). -/
def generateHash (name : Str) : ℚ :=
  if name = [] then 0
  else
    let p := hashAux (name.take (MAX_CHAR + 1)) 1 0 0
    if 0 < p.2 then p.1 / p.2 else p.1

/-- The name normalization inlined in `Color.colorHash`: keep the segment
after the last backtick (when a backtick is present), then truncate at the
first opening parenthesis. -/
def normalizeName (name : Str) : Str :=
  let arr := splitOnChar backtickChar name
  let seg := if arr.length > 1 then arr.getLastD [] else name
  (splitOnChar '(' seg).headD []

/-- color.ts `Color.colorHue`, a static member that is initialized to the
empty string and never reassigned anywhere in the repository. -/
def colorHue : Str := []

/-- The hue selection of `Color.colorHash`: the library type picks the hue
from a fixed enumeration, defaulting to `warm`. -/
def hueFor (libtype : Str) : Str :=
  let dflt := if colorHue.isEmpty then "warm".toList else colorHue
  if libtype.isEmpty then dflt
  else if libtype = "Kernel".toList then "green".toList
  else if libtype = "IO".toList then "red".toList
  else if libtype = "File".toList then "yellow".toList
  else if libtype = "JIT".toList then "purple".toList
  else if libtype = "Networking".toList then "blue".toList
  else dflt

/-- Render an `rgb(r,g,b)` color string. -/
def rgbString (r g b : Int) : Str :=
  "rgb(".toList ++ (toString r).toList ++ ",".toList ++ (toString g).toList
    ++ ",".toList ++ (toString b).toList ++ ")".toList

/-- color.ts `Color.colorHash`: hue from the library type, shade from the
hash vector of the normalized name. -/
def colorHash (name : Str) (libtype : Str) : Str :=
  let hue := hueFor libtype
  let vector := if name.isEmpty then (0 : ℚ) else generateHash (normalizeName name)
  if hue = "red".toList then
    let r := 200 + jsRound (55 * vector)
    let g := 50 + jsRound (80 * vector)
    rgbString r g g
  else if hue = "yellow".toList then
    let r := 175 + jsRound (55 * vector)
    let b := 50 + jsRound (20 * vector)
    rgbString r r b
  else if hue = "green".toList then
    let r := 50 + jsRound (60 * vector)
    let g := 200 + jsRound (55 * vector)
    rgbString r g r
  else if hue = "purple".toList then
    rgbString (100 + jsRound (27 * vector)) (50 + jsRound (80 * vector))
      (200 + jsRound (55 * vector))
  else if hue = "blue".toList then
    let r := 30 + jsRound (10 * vector)
    rgbString r r (200 + jsRound (55 * vector))
  else
    rgbString (200 + jsRound (55 * vector)) (0 + jsRound (230 * (1 - vector)))
      (0 + jsRound (55 * (1 - vector)))

/-- flamechart.ts `MaxWidth`: the label-hide threshold (80 px in the main
revision). -/
def MaxWidth : ℚ := 80

/-- flamechart.ts `FlameChart.getRectText`.  `rectW` is the rectangle's pixel
width (`getRectWidth(node)`) and `letterLength` the cached per-glyph pixel
width measured from the DOM; both reach the function as readily computed
numbers, so they are parameters here.  `2 * 2` is the literal horizontal
padding of the source. -/
def getRectText (rectW : ℚ) (letterLength : ℚ) (name : Str) : Str :=
  let width := rectW - 2 * 2
  let textLength : ℚ := (name.length : ℚ) * letterLength
  if width < MaxWidth then []
  else if textLength < width then name
  else
    let numOfLetters := width / letterLength - 3
    jsSlice0 name (jsTrunc numOfLetters) ++ "...".toList

/-- The raw input tree (`INode` of flamechart.ts, as parsed from the JSON
resource): a name, the declared value (the cumulative total including all
descendants), a library-type tag and the ordered children. -/
inductive STree where
  | node (name : Str) (value : ℚ) (typ : Str) (cs : List STree)

/-- The declared value stored at the root of a subtree. -/
def STree.declared : STree → ℚ
  | .node _ v _ _ => v

/-- The children list at the root of a subtree. -/
def STree.children : STree → List STree
  | .node _ _ _ cs => cs

/-- Sum of the declared values of a list of children, as accumulated by the
`forEach` loop inside the `root.sum` callback of the FlameChart constructor. -/
def declSum (cs : List STree) : ℚ := (cs.map STree.declared).sum

/-- The callback passed to d3 `root.sum` in the FlameChart constructor:
`d.value - childrenValueTotal`, i.e. the node's exclusive (self) value. -/
def selfValue : STree → ℚ
  | .node _ v _ cs => v - declSum cs

mutual
/-- d3 `hierarchy.sum(f)`: post-order, each node's computed value is
`f(node.data)` plus the sum of the children's computed values. -/
def sumValue : STree → ℚ
  | .node nm v ty cs => selfValue (.node nm v ty cs) + sumValueL cs
def sumValueL : List STree → ℚ
  | [] => 0
  | c :: cs => sumValue c + sumValueL cs
end

mutual
/-- Modelled from the spec (§4.1/§7): the clamping policy the spec offers as
one of the two admissible treatments of a negative computed self value —
clamp the self value to zero before accumulating.  The source has no such
clamp (nor any validation); this definition exists to compare the policies
against the code. -/
def clampedSum : STree → ℚ
  | .node nm v ty cs => max (selfValue (.node nm v ty cs)) 0 + clampedSumL cs
def clampedSumL : List STree → ℚ
  | [] => 0
  | c :: cs => clampedSum c + clampedSumL cs
end

/-- The subtree of the input tree addressed by a child-index path. -/
def subtreeAt : STree → Path → Option STree
  | t, [] => some t
  | .node _ _ _ cs, i :: rest =>
    match cs[i]? with
    | some c => subtreeAt c rest
    | none => none

mutual
/-- Every declared value in the tree is nonnegative (as holds for profiling
weights). -/
def nonnegT : STree → Prop
  | .node _ v _ cs => 0 ≤ v ∧ nonnegTL cs
def nonnegTL : List STree → Prop
  | [] => True
  | c :: cs => nonnegT c ∧ nonnegTL cs
end

mutual
/-- d3 `hierarchy` node height: the longest downward distance to a leaf. -/
def heightS : STree → Nat
  | .node _ _ _ cs => heightLS cs
def heightLS : List STree → Nat
  | [] => 0
  | c :: cs => max (heightS c + 1) (heightLS cs)
end

/-- The per-node record carried by a laid-out d3 hierarchy node: the `INode`
data fields (name, type, declared value, the mutable `hide`/`fade` flags),
the computed value from `root.sum`, the `highlighted` flag the search
handlers attach to the node, and the partition rectangle. -/
structure RData where
  name : Str
  typ : Str
  declared : ℚ
  value : ℚ
  hide : Bool
  fade : Bool
  highlighted : Bool
  x0 : ℚ
  x1 : ℚ
  y0 : ℚ
  y1 : ℚ

/-- The laid-out tree: `d3.HierarchyRectangularNode<INode>`. -/
inductive RTree where
  | node (d : RData) (cs : List RTree)

/-- The record at the root of a laid-out subtree. -/
def RTree.data : RTree → RData
  | .node d _ => d

/-- The children of a laid-out subtree. -/
def RTree.children : RTree → List RTree
  | .node _ cs => cs

/-- The laid-out subtree addressed by a child-index path. -/
def nodeAt? : RTree → Path → Option RTree
  | t, [] => some t
  | .node _ cs, i :: rest =>
    match cs[i]? with
    | some c => nodeAt? c rest
    | none => none

/-- The per-node record addressed by a child-index path. -/
def dataAt? (t : RTree) (q : Path) : Option RData :=
  (nodeAt? t q).map RTree.data

mutual
/-- One step of d3 `partition` (padding 0), mirroring `positionNode` and
`treemapDice`: the node at `depth` owns the raw interval `[x0,x1]` and band
`[y0,y1]`; its children are diced left-to-right inside `[x0,x1]` with widths
`child.value * k` where `k = parent.value && (x1-x0)/parent.value`, into the
band `[dy*(depth+1)/n, dy*(depth+2)/n]`; finally the node's own degenerate
intervals are collapsed to their midpoint (the padding subtraction of the
source is a no-op at padding 0). -/
def layoutNode (dy n : ℚ) : STree → Nat → ℚ → ℚ → ℚ → ℚ → RTree
  | .node nm v ty cs, depth, x0, x1, y0, y1 =>
    let val := sumValue (.node nm v ty cs)
    let k := if val = 0 then 0 else (x1 - x0) / val
    let cy0 := dy * ((depth : ℚ) + 1) / n
    let cy1 := dy * ((depth : ℚ) + 2) / n
    let rcs := layoutChildren dy n k depth cy0 cy1 x0 cs
    let fx0 := if x1 < x0 then (x0 + x1) / 2 else x0
    let fx1 := if x1 < x0 then (x0 + x1) / 2 else x1
    let fy0 := if y1 < y0 then (y0 + y1) / 2 else y0
    let fy1 := if y1 < y0 then (y0 + y1) / 2 else y1
    .node { name := nm, typ := ty, declared := v, value := val,
            hide := false, fade := false, highlighted := false,
            x0 := fx0, x1 := fx1, y0 := fy0, y1 := fy1 } rcs
def layoutChildren (dy n k : ℚ) (depth : Nat) (cy0 cy1 : ℚ) : ℚ → List STree → List RTree
  | _, [] => []
  | cx, c :: cs =>
    layoutNode dy n c (depth + 1) cx (cx + sumValue c * k) cy0 cy1 ::
      layoutChildren dy n k depth cy0 cy1 (cx + sumValue c * k) cs
end

/-- d3 `partition().size([dx,dy]).padding(0)` applied to the summed tree:
the root gets `x0 = y0 = 0`, `x1 = dx`, `y1 = dy/n` with `n = height + 1`
(flamechart.ts passes `[this._height, this._width]`, so the abstract x-extent
carries the argument called height there; the partition arithmetic is the
same for any extents). -/
def d3partition (dx dy : ℚ) (t : STree) : RTree :=
  let n : ℚ := (heightS t : ℚ) + 1
  layoutNode dy n t 0 0 dx 0 (dy / n)

mutual
/-- Apply a record transformation to every node of a subtree: the shape of
`node.each(...)` / the recursive `show` of flamechartUtils. -/
def mapData (g : RData → RData) : RTree → RTree
  | .node d cs => .node (g d) (mapDataL g cs)
def mapDataL (g : RData → RData) : List RTree → List RTree
  | [] => []
  | c :: cs => mapData g c :: mapDataL g cs
end

/-- The record update performed on every node of a hidden sibling subtree. -/
def hideUpd (d : RData) : RData := { d with hide := true }

mutual
/-- flamechartUtils `hideSiblings`: walking the parent chain up from the
focus, every sibling of a path node (and that sibling's entire subtree) gets
`hide := true`.  The bottom-up pointer walk of the source is rendered as a
top-down walk along the focus path, which touches the same set of nodes. -/
def hideSiblings : RTree → Path → RTree
  | t, [] => t
  | .node d cs, i :: rest => .node d (hideSibChildren rest i cs)
def hideSibChildren (rest : Path) : Nat → List RTree → List RTree
  | _, [] => []
  | 0, c :: cs => hideSiblings c rest :: mapDataL hideUpd cs
  | i + 1, c :: cs => mapData hideUpd c :: hideSibChildren rest i cs
end

mutual
/-- flamechartUtils `fadeAncestors`: every strict ancestor of the focus gets
`fade := true` (the focus itself is untouched). -/
def fadeAncestors : RTree → Path → RTree
  | t, [] => t
  | .node d cs, i :: rest => .node { d with fade := true } (fadeChild rest i cs)
def fadeChild (rest : Path) : Nat → List RTree → List RTree
  | _, [] => []
  | 0, c :: cs => fadeAncestors c rest :: cs
  | i + 1, c :: cs => c :: fadeChild rest i cs
end

mutual
/-- Apply a subtree transformation at the node addressed by a path. -/
def applyAt (g : RTree → RTree) : RTree → Path → RTree
  | t, [] => g t
  | .node d cs, i :: rest => .node d (applyAtChild g rest i cs)
def applyAtChild (g : RTree → RTree) (rest : Path) : Nat → List RTree → List RTree
  | _, [] => []
  | 0, c :: cs => applyAt g c rest :: cs
  | i + 1, c :: cs => c :: applyAtChild g rest i cs
end

/-- flamechartUtils `show`, applied at the focus: the focus and all its
descendants get `fade := false` and `hide := false`. -/
def showSubtree (t : RTree) (p : Path) : RTree :=
  applyAt (mapData fun d => { d with fade := false, hide := false }) t p

/-- The state the zoom handler reads and writes: the laid-out tree, the
current focus (`this._currentFocus`) and the effective layout width
(`this._nodesWidth`). -/
structure ZoomState where
  tree : RTree
  focus : Path
  nodesWidth : ℚ

/-- The focus update at the head of `FlameChart.onZoom`:
`this._currentFocus = this._currentFocus === p ? p = p.parent ?? p : p`.
Clicking the focused node resolves to its parent (the root, having no
parent, resolves to itself). -/
def resolveFocus (st : ZoomState) (p : Path) : Path :=
  if p = st.focus then (if p = [] then p else p.dropLast) else p

/-- flamechart.ts `FlameChart.onZoom` (the model-state part; the remainder of
the handler only repaints DOM attributes from this state): resolve the focus,
translate every node's horizontal interval by the focus's pre-transition
`x0`, set the effective width to the focus's width, then recompute the
visibility flags by `hideSiblings`, `fadeAncestors`, `show` in source order.
The `none` branch is unreachable for a focus resolved from a node of the
tree; it mirrors `if (!p) return`. -/
def zoomTo (st : ZoomState) (p : Path) : ZoomState :=
  let f := resolveFocus st p
  match dataAt? st.tree f with
  | none => { st with focus := f }
  | some d =>
    let rootx0 := d.x0
    let t1 := mapData (fun e => { e with x0 := e.x0 - rootx0, x1 := e.x1 - rootx0 }) st.tree
    let t2 := hideSiblings t1 f
    let t3 := fadeAncestors t2 f
    let t4 := showSubtree t3 f
    { tree := t4, focus := f, nodesWidth := d.x1 - d.x0 }

/-- flamechart.ts `FlameChart.onSearch`: every node's `highlighted` flag is
set from a case-insensitive `indexOf` test of the search term against the
node's name (`index !== -1`). -/
def searchMark (term : Str) (t : RTree) : RTree :=
  mapData (fun d => { d with highlighted := jsIndexOf (jsLower d.name) (jsLower term) != -1 }) t

/-- flamechart.ts `FlameChart.onClearSearch`: every node's `highlighted` flag
is reset to `false`. -/
def clearSearch (t : RTree) : RTree :=
  mapData (fun d => { d with highlighted := false }) t

/-- Record of the laid-out node `A1` of the running example tree of spec §8
(`root(100){A(60){A1(30)}, B(40)}`, layout width 100). -/
def exA1 : RData :=
  { name := "A1".toList, typ := [], declared := 30, value := 30,
    hide := false, fade := false, highlighted := false,
    x0 := 0, x1 := 30, y0 := 2, y1 := 3 }

/-- Record of the laid-out node `A` of the running example tree. -/
def exA : RData :=
  { name := "A".toList, typ := [], declared := 60, value := 60,
    hide := false, fade := false, highlighted := false,
    x0 := 0, x1 := 60, y0 := 1, y1 := 2 }

/-- Record of the laid-out node `B` of the running example tree. -/
def exB : RData :=
  { name := "B".toList, typ := [], declared := 40, value := 40,
    hide := false, fade := false, highlighted := false,
    x0 := 60, x1 := 100, y0 := 1, y1 := 2 }

/-- Record of the laid-out root of the running example tree. -/
def exRoot : RData :=
  { name := "root".toList, typ := [], declared := 100, value := 100,
    hide := false, fade := false, highlighted := false,
    x0 := 0, x1 := 100, y0 := 0, y1 := 1 }

/-- The laid-out running example tree `root{A{A1}, B}`. -/
def exTree : RTree :=
  .node exRoot [.node exA [.node exA1 []], .node exB []]

/-- The freshly constructed zoom state over the example tree: focus at the
root, effective width 100. -/
def exState : ZoomState := ⟨exTree, [], 100⟩

/-- Pointwise effect of `hideSiblings t f` on the record at path `q`: nodes
on the focus path or inside the focus subtree are untouched, every other
node gets `hide := true`. -/
def hsUpd (f q : Path) (d : RData) : RData :=
  if q <+: f ∨ f <+: q then d else hideUpd d

/-- Pointwise effect of `fadeAncestors t f` on the record at path `q`:
strict ancestors of the focus get `fade := true`, all else is untouched. -/
def faUpd (f q : Path) (d : RData) : RData :=
  if q <+: f ∧ q ≠ f then { d with fade := true } else d

/-- Pointwise effect of `showSubtree t f` on the record at path `q`: the
focus and its descendants get `hide := false` and `fade := false`. -/
def showUpd (f q : Path) (d : RData) : RData :=
  if f <+: q then { d with hide := false, fade := false } else d

/-- Pointwise effect of a whole `zoomTo` with resolved focus `f` (whose
pre-transition `x0` is `x0f`) on the record at path `q`. -/
def zoomUpd (x0f : ℚ) (f q : Path) (d : RData) : RData :=
  showUpd f q (faUpd f q (hsUpd f q { d with x0 := d.x0 - x0f, x1 := d.x1 - x0f }))

/-- Sum of the computed values of the first `i` elements of a children list:
the offset accumulated by the dicing loop before child `i` is placed. -/
def psum (cs : List STree) (i : Nat) : ℚ :=
  ((cs.take i).map sumValue).sum

/-- The partition-layout invariant, per node of a laid-out tree: at every
node (parent record `dp`) the children start at the parent's `x0`, have
nonnegative widths proportional to their computed values (zero-width when
the parent's computed value is zero), tile consecutively, and are pairwise
disjoint. -/
def PartInv (t : RTree) : Prop :=
  ∀ q dp, dataAt? t q = some dp → ∀ i ci, dataAt? t (q ++ [i]) = some ci →
    (i = 0 → ci.x0 = dp.x0) ∧
    (0 ≤ ci.x1 - ci.x0) ∧
    (ci.x1 - ci.x0 = (if dp.value = 0 then 0 else (dp.x1 - dp.x0) * ci.value / dp.value)) ∧
    (∀ cj, dataAt? t (q ++ [i + 1]) = some cj → ci.x1 = cj.x0) ∧
    (∀ j cj, i < j → dataAt? t (q ++ [j]) = some cj → ci.x1 ≤ cj.x0)

/-- Input tree whose root keeps a positive self value: `root` declares 10 but
its only child declares 4. -/
def gapTree : STree :=
  .node "root".toList 10 [] [.node "A".toList 4 [] []]

/-- The layout of `gapTree` at width 10 (two levels, so `dy = 2` gives unit
bands). -/
def gapLayout : RTree := d3partition 10 2 gapTree

/-- Input tree with a negative computed self value: `root` declares 5 but its
only child declares 10, so `selfValue(root) = -5`. -/
def overTree : STree :=
  .node "root".toList 5 [] [.node "leaf".toList 10 [] []]

theorem prefix_antisymm {q f : Path} (h1 : q <+: f) (h2 : f <+: q) : q = f :=
  h1.sublist.antisymm h2.sublist

theorem data_mapData (g : RData → RData) (t : RTree) : (mapData g t).data = g t.data := by
  cases t with
  | node d cs => rfl

theorem mapDataL_getElem? (g : RData → RData) (cs : List RTree) (i : Nat) :
    (mapDataL g cs)[i]? = (cs[i]?).map (mapData g) := by
  induction cs generalizing i with
  | nil => simp [mapDataL]
  | cons c cs ih =>
    cases i with
    | zero => simp [mapDataL]
    | succ m => simp [mapDataL, ih]

theorem nodeAt?_mapData (g : RData → RData) (t : RTree) (q : Path) :
    nodeAt? (mapData g t) q = (nodeAt? t q).map (mapData g) := by
  induction q generalizing t with
  | nil =>
    cases t
    simp [mapData, nodeAt?]
  | cons i q ih =>
    cases t with
    | node d cs =>
      cases h : cs[i]? with
      | none => simp [mapData, nodeAt?, mapDataL_getElem?, h]
      | some c => simp [mapData, nodeAt?, mapDataL_getElem?, h, ih]

theorem dataAt?_mapData (g : RData → RData) (t : RTree) (q : Path) :
    dataAt? (mapData g t) q = (dataAt? t q).map g := by
  unfold dataAt?
  rw [nodeAt?_mapData]
  cases nodeAt? t q <;> simp [data_mapData]

theorem hsUpd_fnil (q : Path) : hsUpd [] q = id := by
  funext d
  simp [hsUpd, List.nil_prefix]

theorem hsUpd_qnil (f : Path) : hsUpd f [] = id := by
  funext d
  simp [hsUpd, List.nil_prefix]

theorem hsUpd_cons_eq (i : Nat) (rest q' : Path) :
    hsUpd (i :: rest) (i :: q') = hsUpd rest q' := by
  funext d
  simp [hsUpd, List.cons_prefix_cons]

theorem hsUpd_cons_ne {j i : Nat} (h : j ≠ i) (rest q' : Path) :
    hsUpd (i :: rest) (j :: q') = hideUpd := by
  funext d
  have h2 : i ≠ j := Ne.symm h
  simp [hsUpd, List.cons_prefix_cons, h, h2]

theorem hideSibChildren_getElem? (rest : Path) (i : Nat) (cs : List RTree) (j : Nat) :
    (hideSibChildren rest i cs)[j]? =
      (cs[j]?).map (fun c => if j = i then hideSiblings c rest else mapData hideUpd c) := by
  induction cs generalizing i j with
  | nil => simp [hideSibChildren]
  | cons c cs ih =>
    cases i with
    | zero =>
      cases j with
      | zero => simp [hideSibChildren]
      | succ m => simp [hideSibChildren, mapDataL_getElem?]
    | succ n =>
      cases j with
      | zero => simp [hideSibChildren]
      | succ m => simp [hideSibChildren, ih]

theorem dataAt?_hideSiblings (t : RTree) (f q : Path) :
    dataAt? (hideSiblings t f) q = (dataAt? t q).map (hsUpd f q) := by
  induction f generalizing t q with
  | nil =>
    rw [hsUpd_fnil]
    cases h : dataAt? t q <;> simp [hideSiblings, h]
  | cons i rest ih =>
    cases t with
    | node d cs =>
      cases q with
      | nil => simp [dataAt?, nodeAt?, hideSiblings, RTree.data, hsUpd_qnil]
      | cons j q' =>
        by_cases hji : j = i
        · subst hji
          rw [hsUpd_cons_eq]
          cases h : cs[j]? with
          | none => simp [dataAt?, nodeAt?, hideSiblings, hideSibChildren_getElem?, h]
          | some c =>
            have lhs : dataAt? (hideSiblings (RTree.node d cs) (j :: rest)) (j :: q') =
                dataAt? (hideSiblings c rest) q' := by
              simp [dataAt?, nodeAt?, hideSiblings, hideSibChildren_getElem?, h]
            have rhs : dataAt? (RTree.node d cs) (j :: q') = dataAt? c q' := by
              simp [dataAt?, nodeAt?, h]
            rw [lhs, rhs, ih]
        · rw [hsUpd_cons_ne hji]
          cases h : cs[j]? with
          | none => simp [dataAt?, nodeAt?, hideSiblings, hideSibChildren_getElem?, h]
          | some c =>
            have lhs : dataAt? (hideSiblings (RTree.node d cs) (i :: rest)) (j :: q') =
                dataAt? (mapData hideUpd c) q' := by
              simp [dataAt?, nodeAt?, hideSiblings, hideSibChildren_getElem?, h, hji]
            have rhs : dataAt? (RTree.node d cs) (j :: q') = dataAt? c q' := by
              simp [dataAt?, nodeAt?, h]
            rw [lhs, rhs, dataAt?_mapData]

theorem faUpd_fnil (q : Path) : faUpd [] q = id := by
  funext d
  simp [faUpd, List.prefix_nil]

theorem faUpd_qnil (i : Nat) (rest : Path) :
    faUpd (i :: rest) [] = fun d => { d with fade := true } := by
  funext d
  simp [faUpd, List.nil_prefix]

theorem faUpd_cons_eq (i : Nat) (rest q' : Path) :
    faUpd (i :: rest) (i :: q') = faUpd rest q' := by
  funext d
  simp [faUpd, List.cons_prefix_cons]

theorem faUpd_cons_ne {j i : Nat} (h : j ≠ i) (rest q' : Path) :
    faUpd (i :: rest) (j :: q') = id := by
  funext d
  simp [faUpd, List.cons_prefix_cons, h]

theorem fadeChild_getElem? (rest : Path) (i : Nat) (cs : List RTree) (j : Nat) :
    (fadeChild rest i cs)[j]? =
      (cs[j]?).map (fun c => if j = i then fadeAncestors c rest else c) := by
  induction cs generalizing i j with
  | nil => simp [fadeChild]
  | cons c cs ih =>
    cases i with
    | zero =>
      cases j with
      | zero => simp [fadeChild]
      | succ m => simp [fadeChild]
    | succ n =>
      cases j with
      | zero => simp [fadeChild]
      | succ m => simp [fadeChild, ih]

theorem dataAt?_fadeAncestors (t : RTree) (f q : Path) :
    dataAt? (fadeAncestors t f) q = (dataAt? t q).map (faUpd f q) := by
  induction f generalizing t q with
  | nil =>
    rw [faUpd_fnil]
    cases h : dataAt? t q <;> simp [fadeAncestors, h]
  | cons i rest ih =>
    cases t with
    | node d cs =>
      cases q with
      | nil => simp [dataAt?, nodeAt?, fadeAncestors, RTree.data, faUpd_qnil]
      | cons j q' =>
        by_cases hji : j = i
        · subst hji
          rw [faUpd_cons_eq]
          cases h : cs[j]? with
          | none => simp [dataAt?, nodeAt?, fadeAncestors, fadeChild_getElem?, h]
          | some c =>
            have lhs : dataAt? (fadeAncestors (RTree.node d cs) (j :: rest)) (j :: q') =
                dataAt? (fadeAncestors c rest) q' := by
              simp [dataAt?, nodeAt?, fadeAncestors, fadeChild_getElem?, h]
            have rhs : dataAt? (RTree.node d cs) (j :: q') = dataAt? c q' := by
              simp [dataAt?, nodeAt?, h]
            rw [lhs, rhs, ih]
        · rw [faUpd_cons_ne hji]
          cases h : cs[j]? with
          | none => simp [dataAt?, nodeAt?, fadeAncestors, fadeChild_getElem?, h]
          | some c =>
            have lhs : dataAt? (fadeAncestors (RTree.node d cs) (i :: rest)) (j :: q') =
                dataAt? c q' := by
              simp [dataAt?, nodeAt?, fadeAncestors, fadeChild_getElem?, h, hji]
            have rhs : dataAt? (RTree.node d cs) (j :: q') = dataAt? c q' := by
              simp [dataAt?, nodeAt?, h]
            rw [lhs, rhs]
            cases dataAt? c q' <;> simp

theorem showUpd_fnil (q : Path) :
    showUpd [] q = fun d => { d with hide := false, fade := false } := by
  funext d
  simp [showUpd, List.nil_prefix]

theorem showUpd_qnil (i : Nat) (rest : Path) : showUpd (i :: rest) [] = id := by
  funext d
  simp [showUpd]

theorem showUpd_cons_eq (i : Nat) (rest q' : Path) :
    showUpd (i :: rest) (i :: q') = showUpd rest q' := by
  funext d
  simp [showUpd, List.cons_prefix_cons]

theorem showUpd_cons_ne {j i : Nat} (h : j ≠ i) (rest q' : Path) :
    showUpd (i :: rest) (j :: q') = id := by
  funext d
  have h2 : i ≠ j := Ne.symm h
  simp [showUpd, List.cons_prefix_cons, h2]

theorem applyAtChild_getElem? (g : RTree → RTree) (rest : Path) (i : Nat)
    (cs : List RTree) (j : Nat) :
    (applyAtChild g rest i cs)[j]? =
      (cs[j]?).map (fun c => if j = i then applyAt g c rest else c) := by
  induction cs generalizing i j with
  | nil => simp [applyAtChild]
  | cons c cs ih =>
    cases i with
    | zero =>
      cases j with
      | zero => simp [applyAtChild]
      | succ m => simp [applyAtChild]
    | succ n =>
      cases j with
      | zero => simp [applyAtChild]
      | succ m => simp [applyAtChild, ih]

theorem dataAt?_showSubtree (t : RTree) (f q : Path) :
    dataAt? (showSubtree t f) q = (dataAt? t q).map (showUpd f q) := by
  induction f generalizing t q with
  | nil =>
    rw [showUpd_fnil]
    simp only [showSubtree, applyAt]
    rw [dataAt?_mapData]
  | cons i rest ih =>
    cases t with
    | node d cs =>
      cases q with
      | nil => simp [dataAt?, nodeAt?, showSubtree, applyAt, RTree.data, showUpd_qnil]
      | cons j q' =>
        by_cases hji : j = i
        · subst hji
          rw [showUpd_cons_eq]
          cases h : cs[j]? with
          | none => simp [dataAt?, nodeAt?, showSubtree, applyAt, applyAtChild_getElem?, h]
          | some c =>
            have lhs : dataAt? (showSubtree (RTree.node d cs) (j :: rest)) (j :: q') =
                dataAt? (showSubtree c rest) q' := by
              simp [dataAt?, nodeAt?, showSubtree, applyAt, applyAtChild_getElem?, h]
            have rhs : dataAt? (RTree.node d cs) (j :: q') = dataAt? c q' := by
              simp [dataAt?, nodeAt?, h]
            rw [lhs, rhs, ih]
        · rw [showUpd_cons_ne hji]
          cases h : cs[j]? with
          | none => simp [dataAt?, nodeAt?, showSubtree, applyAt, applyAtChild_getElem?, h]
          | some c =>
            have lhs : dataAt? (showSubtree (RTree.node d cs) (i :: rest)) (j :: q') =
                dataAt? c q' := by
              simp [dataAt?, nodeAt?, showSubtree, applyAt, applyAtChild_getElem?, h, hji]
            have rhs : dataAt? (RTree.node d cs) (j :: q') = dataAt? c q' := by
              simp [dataAt?, nodeAt?, h]
            rw [lhs, rhs]
            cases dataAt? c q' <;> simp

theorem zoom_focus (st : ZoomState) (p : Path) : (zoomTo st p).focus = resolveFocus st p := by
  unfold zoomTo
  cases h : dataAt? st.tree (resolveFocus st p) <;> simp [h]

theorem zoom_width (st : ZoomState) (p : Path) (df : RData)
    (hf : dataAt? st.tree (resolveFocus st p) = some df) :
    (zoomTo st p).nodesWidth = df.x1 - df.x0 := by
  unfold zoomTo
  simp [hf]

theorem zoom_tree_eq (st : ZoomState) (p : Path) (df : RData)
    (hf : dataAt? st.tree (resolveFocus st p) = some df) :
    (zoomTo st p).tree =
      showSubtree (fadeAncestors (hideSiblings
        (mapData (fun e => { e with x0 := e.x0 - df.x0, x1 := e.x1 - df.x0 }) st.tree)
        (resolveFocus st p)) (resolveFocus st p)) (resolveFocus st p) := by
  unfold zoomTo
  simp [hf]

theorem zoom_tree_none (st : ZoomState) (p : Path)
    (hf : dataAt? st.tree (resolveFocus st p) = none) :
    (zoomTo st p).tree = st.tree := by
  unfold zoomTo
  simp [hf]

theorem dataAt?_zoomTo (st : ZoomState) (p : Path) (df : RData)
    (hf : dataAt? st.tree (resolveFocus st p) = some df) (q : Path) :
    dataAt? (zoomTo st p).tree q =
      (dataAt? st.tree q).map (zoomUpd df.x0 (resolveFocus st p) q) := by
  rw [zoom_tree_eq st p df hf, dataAt?_showSubtree, dataAt?_fadeAncestors,
    dataAt?_hideSiblings, dataAt?_mapData]
  cases dataAt? st.tree q <;> simp [zoomUpd]

theorem zoomUpd_fields (x0f : ℚ) (f q : Path) (d : RData) :
    (zoomUpd x0f f q d).x0 = d.x0 - x0f ∧ (zoomUpd x0f f q d).x1 = d.x1 - x0f ∧
    (zoomUpd x0f f q d).y0 = d.y0 ∧ (zoomUpd x0f f q d).y1 = d.y1 ∧
    (zoomUpd x0f f q d).name = d.name ∧ (zoomUpd x0f f q d).typ = d.typ ∧
    (zoomUpd x0f f q d).declared = d.declared ∧ (zoomUpd x0f f q d).value = d.value ∧
    (zoomUpd x0f f q d).highlighted = d.highlighted := by
  unfold zoomUpd showUpd faUpd hsUpd hideUpd
  split_ifs <;> simp

theorem zoomUpd_flags_focus (x0f : ℚ) {f q : Path} (h : f <+: q) (d : RData) :
    (zoomUpd x0f f q d).hide = false ∧ (zoomUpd x0f f q d).fade = false := by
  unfold zoomUpd showUpd
  simp [h]

theorem zoomUpd_flags_ancestor (x0f : ℚ) {f q : Path} (h1 : q <+: f) (h2 : q ≠ f)
    (d : RData) :
    (zoomUpd x0f f q d).fade = true ∧ (zoomUpd x0f f q d).hide = d.hide := by
  have hnf : ¬ f <+: q := fun hfq => h2 (prefix_antisymm h1 hfq)
  unfold zoomUpd showUpd faUpd hsUpd
  simp [hnf, h1, h2]

theorem zoomUpd_flags_other (x0f : ℚ) {f q : Path} (h1 : ¬ q <+: f) (h2 : ¬ f <+: q)
    (d : RData) :
    (zoomUpd x0f f q d).hide = true ∧ (zoomUpd x0f f q d).fade = d.fade := by
  unfold zoomUpd showUpd faUpd hsUpd hideUpd
  simp [h1, h2]

/-- C1 (amended).  After any `zoomTo` whose resolved focus is a node of the
tree, the flags satisfy: every strict ancestor of the focus has `fade = true`
(its `hide` flag keeps its previous value); the focus and all its descendants
have `hide = false` and `fade = false`; every other node has `hide = true`
(its `fade` flag keeps its previous value).  Stale flags are overridden only
inside the focus subtree, not on ancestors (`hide`) or on the hidden
remainder (`fade`). -/
theorem claim1_visibility (st : ZoomState) (p : Path) (df : RData)
    (hf : dataAt? st.tree (resolveFocus st p) = some df) (q : Path) (d : RData)
    (hq : dataAt? st.tree q = some d) :
    ∃ d2, dataAt? (zoomTo st p).tree q = some d2 ∧
      (resolveFocus st p <+: q → d2.hide = false ∧ d2.fade = false) ∧
      (q <+: resolveFocus st p → q ≠ resolveFocus st p →
        d2.fade = true ∧ d2.hide = d.hide) ∧
      (¬ q <+: resolveFocus st p → ¬ resolveFocus st p <+: q →
        d2.hide = true ∧ d2.fade = d.fade) := by
  refine ⟨zoomUpd df.x0 (resolveFocus st p) q d, ?_, ?_, ?_, ?_⟩
  · rw [dataAt?_zoomTo st p df hf, hq]
    rfl
  · intro h
    exact zoomUpd_flags_focus df.x0 h d
  · intro h1 h2
    exact zoomUpd_flags_ancestor df.x0 h1 h2 d
  · intro h1 h2
    exact zoomUpd_flags_other df.x0 h1 h2 d

/-- Witness for C1 (amended): zooming the example state to node `A` (path
`[0]`) hides the sibling `B` (path `[1]`), whose `fade` flag keeps its prior
value. -/
theorem claim1_visibility_witness :
    ∃ d2, dataAt? (zoomTo exState [0]).tree [1] = some d2 ∧
      d2.hide = true ∧ d2.fade = exB.fade := by
  obtain ⟨d2, h, _, _, hother⟩ := claim1_visibility exState [0] exA rfl [1] exB rfl
  obtain ⟨hh, hf⟩ := hother (by decide) (by decide)
  exact ⟨d2, h, hh, hf⟩

/-- C1 counterexample.  The claim as stated requires every node outside the
focus path and subtree to end with `fade = false`, and every strict ancestor
to end with `hide = false`, stale flags being overridden.  Starting from the
freshly laid-out example tree `root{A{A1}, B}`: after `zoomTo [0,0]` (node
`A1`) followed by `zoomTo [1]` (node `B`), node `A` (path `[0]`) is in a
hidden sibling subtree of the focus `[1]` yet keeps `fade = true` from the
first zoom; after a further `zoomTo [0,0]`, node `A` is a strict ancestor of
the focus `[0,0]` yet keeps `hide = true` from the second zoom. -/
theorem claim1_counterexample :
    (¬ ([0] : Path) <+: [1] ∧ ¬ ([1] : Path) <+: [0] ∧
      (dataAt? (zoomTo (zoomTo exState [0, 0]) [1]).tree [0]).map RData.fade = some true ∧
      (zoomTo (zoomTo exState [0, 0]) [1]).focus = [1]) ∧
    (([0] : Path) <+: [0, 0] ∧ ([0] : Path) ≠ [0, 0] ∧
      (dataAt? (zoomTo (zoomTo (zoomTo exState [0, 0]) [1]) [0, 0]).tree [0]).map
        RData.hide = some true ∧
      (zoomTo (zoomTo (zoomTo exState [0, 0]) [1]) [0, 0]).focus = [0, 0]) := by
  decide

/-- C2.  The focus update of `onZoom`: zooming to a node `c` that is not the
current focus focuses `c`; zooming to the already-focused `c` focuses `c`'s
parent; hence two consecutive `zoomTo c` starting elsewhere land on `c`'s
parent; and zooming to the root while the root is focused keeps the root. -/
theorem claim2_zoom_toggle (st : ZoomState) (c : Path) (hc : c ≠ []) :
    (st.focus ≠ c → (zoomTo st c).focus = c) ∧
    (st.focus = c → (zoomTo st c).focus = c.dropLast) ∧
    (st.focus ≠ c → (zoomTo (zoomTo st c) c).focus = c.dropLast) ∧
    (∀ st2 : ZoomState, st2.focus = [] → (zoomTo st2 []).focus = []) := by
  have one : st.focus ≠ c → (zoomTo st c).focus = c := by
    intro h
    rw [zoom_focus]
    unfold resolveFocus
    rw [if_neg (fun hh => h hh.symm)]
  refine ⟨one, ?_, ?_, ?_⟩
  · intro h
    rw [zoom_focus]
    unfold resolveFocus
    rw [if_pos h.symm, if_neg hc]
  · intro h
    rw [zoom_focus]
    unfold resolveFocus
    rw [one h, if_pos rfl, if_neg hc]
  · intro st2 h2
    rw [zoom_focus]
    unfold resolveFocus
    rw [h2]
    simp

/-- Witness for C2 at the example state (focus at the root): a first
`zoomTo [1]` focuses `B`, a second one zooms out to `B`'s parent, the root. -/
theorem claim2_zoom_toggle_witness :
    (zoomTo exState [1]).focus = [1] ∧ (zoomTo (zoomTo exState [1]) [1]).focus = [] := by
  have h := claim2_zoom_toggle exState [1] (by decide)
  refine ⟨h.1 (by decide), ?_⟩
  have h3 := h.2.2.1 (by decide)
  simpa using h3

/-- C5.  A `zoomTo` with resolved focus `f` (pre-transition record `df`)
translates every node's `x0` and `x1` by exactly `df.x0`, so the focus's new
`x0` is 0 and the effective layout width becomes `df.x1 - df.x0`; widths,
`y`-coordinates, tree structure (the set of valid paths), names, types and
both value fields are unchanged. -/
theorem claim5_zoom_translation (st : ZoomState) (p : Path) (df : RData)
    (hf : dataAt? st.tree (resolveFocus st p) = some df) :
    (zoomTo st p).nodesWidth = df.x1 - df.x0 ∧
    (dataAt? (zoomTo st p).tree (resolveFocus st p)).map RData.x0 = some 0 ∧
    (∀ q, (dataAt? (zoomTo st p).tree q).isSome = (dataAt? st.tree q).isSome) ∧
    (∀ q d, dataAt? st.tree q = some d →
      ∃ d2, dataAt? (zoomTo st p).tree q = some d2 ∧
        d2.x0 = d.x0 - df.x0 ∧ d2.x1 = d.x1 - df.x0 ∧
        d2.x1 - d2.x0 = d.x1 - d.x0 ∧
        d2.y0 = d.y0 ∧ d2.y1 = d.y1 ∧ d2.name = d.name ∧ d2.typ = d.typ ∧
        d2.declared = d.declared ∧ d2.value = d.value) := by
  refine ⟨zoom_width st p df hf, ?_, ?_, ?_⟩
  · rw [dataAt?_zoomTo st p df hf, hf]
    simp [(zoomUpd_fields df.x0 (resolveFocus st p) (resolveFocus st p) df).1]
  · intro q
    rw [dataAt?_zoomTo st p df hf]
    cases dataAt? st.tree q <;> simp
  · intro q d hq
    refine ⟨zoomUpd df.x0 (resolveFocus st p) q d, ?_, ?_⟩
    · rw [dataAt?_zoomTo st p df hf, hq]
      rfl
    obtain ⟨h0, h1, h2, h3, h4, h5, h6, h7, _⟩ :=
      zoomUpd_fields df.x0 (resolveFocus st p) q d
    refine ⟨h0, h1, ?_, h2, h3, h4, h5, h6, h7⟩
    rw [h0, h1]
    ring

/-- Witness for C5: zooming the example state to `A` sets the width to `A`'s
span, `A`'s new `x0` to 0, and shifts `A1` by `A`'s old `x0`. -/
theorem claim5_zoom_translation_witness :
    (zoomTo exState [0]).nodesWidth = exA.x1 - exA.x0 ∧
    (dataAt? (zoomTo exState [0]).tree [0]).map RData.x0 = some 0 ∧
    ∃ d2, dataAt? (zoomTo exState [0]).tree [0, 0] = some d2 ∧
      d2.x0 = exA1.x0 - exA.x0 := by
  have h := claim5_zoom_translation exState [0] exA rfl
  refine ⟨h.1, h.2.1, ?_⟩
  obtain ⟨d2, hd2, hx0, _⟩ := h.2.2.2 [0, 0] exA1 rfl
  exact ⟨d2, hd2, hx0⟩

theorem idxFrom_isSome_iff (pat : Str) : ∀ hay : Str,
    (idxFrom pat hay).isSome = true ↔ pat <:+: hay := by
  intro hay
  induction hay with
  | nil =>
    rw [idxFrom]
    split
    next h =>
      rw [List.isPrefixOf_iff_prefix, List.prefix_nil] at h
      subst h
      simp [List.nil_infix]
    next h =>
      rw [List.isPrefixOf_iff_prefix, List.prefix_nil] at h
      simp only [Option.isSome_none, Bool.false_eq_true, false_iff]
      intro hh
      exact h (List.sublist_nil.mp hh.sublist)
  | cons c t ih =>
    rw [idxFrom]
    split
    next h =>
      rw [List.isPrefixOf_iff_prefix] at h
      simp [List.infix_cons_iff, h]
    next h =>
      rw [List.isPrefixOf_iff_prefix] at h
      have hmap : (Option.map (fun x => x + 1) (idxFrom pat t)).isSome =
          (idxFrom pat t).isSome := by
        cases idxFrom pat t <;> rfl
      rw [hmap, ih, List.infix_cons_iff]
      simp [h]

theorem idxFrom_empty (hay : Str) : idxFrom [] hay = some 0 := by
  cases hay <;> simp [idxFrom, List.isPrefixOf]

theorem jsIndexOf_hit_iff (hay pat : Str) :
    (jsIndexOf hay pat != -1) = true ↔ pat <:+: hay := by
  rw [← idxFrom_isSome_iff pat hay]
  unfold jsIndexOf
  cases h : idxFrom pat hay with
  | none => simp [h]
  | some n => simp [h]

/-- C8.  `onSearch` sets every node's `highlighted` flag to whether the
lowercased name contains the lowercased term as a substring, and
`onClearSearch` resets every `highlighted` flag to `false`; neither handler
changes any node's `hide` flag, `fade` flag, name or coordinates. -/
theorem claim8_search (t : RTree) (term : Str) (q : Path) (d : RData)
    (hq : dataAt? t q = some d) :
    (∃ d2, dataAt? (searchMark term t) q = some d2 ∧
      (d2.highlighted = true ↔ jsLower term <:+: jsLower d.name) ∧
      d2.hide = d.hide ∧ d2.fade = d.fade ∧ d2.name = d.name ∧
      d2.x0 = d.x0 ∧ d2.x1 = d.x1 ∧ d2.y0 = d.y0 ∧ d2.y1 = d.y1) ∧
    (∃ d3, dataAt? (clearSearch t) q = some d3 ∧ d3.highlighted = false ∧
      d3.hide = d.hide ∧ d3.fade = d.fade ∧ d3.name = d.name ∧
      d3.x0 = d.x0 ∧ d3.x1 = d.x1 ∧ d3.y0 = d.y0 ∧ d3.y1 = d.y1) := by
  constructor
  · refine ⟨{ d with highlighted := jsIndexOf (jsLower d.name) (jsLower term) != -1 },
      ?_, ?_, rfl, rfl, rfl, rfl, rfl, rfl, rfl⟩
    · rw [searchMark, dataAt?_mapData, hq]
      rfl
    · exact jsIndexOf_hit_iff (jsLower d.name) (jsLower term)
  · refine ⟨{ d with highlighted := false }, ?_, rfl, rfl, rfl, rfl, rfl, rfl, rfl, rfl⟩
    rw [clearSearch, dataAt?_mapData, hq]
    rfl

/-- Witness for C8: `search("a1")` on the example tree highlights node `A1`
(the match is case-insensitive), and `clearSearch` resets it. -/
theorem claim8_search_witness :
    (∃ d2, dataAt? (searchMark "a1".toList exTree) [0, 0] = some d2 ∧
      d2.highlighted = true ∧ d2.hide = exA1.hide) ∧
    (∃ d3, dataAt? (clearSearch exTree) [0, 0] = some d3 ∧ d3.highlighted = false) := by
  obtain ⟨⟨d2, h2, hiff, hh, _⟩, ⟨d3, h3, hc, _⟩⟩ :=
    claim8_search exTree "a1".toList [0, 0] exA1 rfl
  exact ⟨⟨d2, h2, hiff.mpr (by decide), hh⟩, ⟨d3, h3, hc⟩⟩

/-- C9.  Searching with the empty term matches every node: the `indexOf`
call returns 0 (never -1) on every name, so every node ends with
`highlighted = true`. -/
theorem claim9_empty_search (t : RTree) (q : Path) (d : RData)
    (hq : dataAt? t q = some d) :
    jsIndexOf (jsLower d.name) (jsLower []) = 0 ∧
    ∃ d2, dataAt? (searchMark [] t) q = some d2 ∧ d2.highlighted = true := by
  have h0 : idxFrom (jsLower []) (jsLower d.name) = some 0 := idxFrom_empty _
  constructor
  · simp [jsIndexOf, h0]
  · refine ⟨{ d with highlighted := jsIndexOf (jsLower d.name) (jsLower []) != -1 },
      ?_, ?_⟩
    · rw [searchMark, dataAt?_mapData, hq]
      rfl
    · simp [jsIndexOf, h0]

/-- Witness for C9 at node `B` of the example tree. -/
theorem claim9_empty_search_witness :
    jsIndexOf (jsLower exB.name) (jsLower []) = 0 ∧
    ∃ d2, dataAt? (searchMark [] exTree) [1] = some d2 ∧ d2.highlighted = true :=
  claim9_empty_search exTree [1] exB rfl

theorem STree.strongRec {motive : STree → Prop}
    (ind : ∀ nm v ty cs, (∀ c ∈ cs, motive c) → motive (.node nm v ty cs)) :
    ∀ t, motive t := by
  have key : ∀ n (t : STree), sizeOf t ≤ n → motive t := by
    intro n
    induction n with
    | zero =>
      intro t ht
      cases t with
      | node nm v ty cs => simp at ht
    | succ n ih =>
      intro t ht
      cases t with
      | node nm v ty cs =>
        apply ind
        intro c hc
        apply ih
        have h1 := List.sizeOf_lt_of_mem hc
        simp at ht
        omega
  exact fun t => key (sizeOf t) t le_rfl

theorem sumValueL_eq (cs : List STree) (h : ∀ c ∈ cs, sumValue c = c.declared) :
    sumValueL cs = declSum cs := by
  induction cs with
  | nil => simp [sumValueL, declSum]
  | cons c cs ih =>
    rw [sumValueL, declSum, List.map_cons, List.sum_cons, h c (by simp),
      ih (fun c hc => h c (by simp [hc]))]
    rfl

theorem sumValue_eq_declared : ∀ t : STree, sumValue t = t.declared := by
  intro t
  induction t using STree.strongRec with
  | ind nm v ty cs ih =>
    rw [sumValue, sumValueL_eq cs ih, selfValue, STree.declared]
    ring

/-- C4.  After the d3 `root.sum` pass of the constructor, every node's
computed value equals its self value (the sum callback) plus the children's
computed values, and therefore equals the node's declared input value. -/
theorem claim4_value_conservation (t : STree) (q : Path) (s : STree)
    (h : subtreeAt t q = some s) :
    sumValue s = selfValue s + sumValueL s.children ∧ sumValue s = s.declared := by
  constructor
  · cases s with
    | node nm v ty cs => rfl
  · exact sumValue_eq_declared s

/-- Witness for C4 at the root of the `gapTree` input. -/
theorem claim4_value_conservation_witness :
    sumValue gapTree = selfValue gapTree + sumValueL gapTree.children ∧
    sumValue gapTree = gapTree.declared :=
  claim4_value_conservation gapTree [] gapTree rfl

/-- C7 counterexample.  The claim requires the build to either fail on a
negative computed self value or clamp it to zero.  On `overTree`
(`root` declares 5, its child declares 10, so `selfValue(root) = -5`) the
d3 `root.sum` pass of the constructor does neither: it is a total
computation with no error path (flamechart.ts:38-44 contains no validation
or exception), and the negative self value is added unclamped, so the root's
computed value is 5, not the 10 the clamping policy would produce. -/
theorem claim7_counterexample :
    selfValue overTree < 0 ∧ sumValue overTree = 5 ∧ clampedSum overTree = 10 ∧
    sumValue overTree ≠ clampedSum overTree := by
  norm_num [overTree, selfValue, sumValue, sumValueL, clampedSum, clampedSumL,
    declSum, STree.declared]

/-- C7 (amended).  The build applies neither of the two policies the spec
offers: it never fails (the model of the `root.sum` pass is a total
function), and at a node with negative computed self value the negative
value is accumulated unclamped, so the node's computed value still equals
its declared value. -/
theorem claim7_negative_self (t : STree) (q : Path) (s : STree)
    (h : subtreeAt t q = some s) (hneg : selfValue s < 0) :
    sumValue s = selfValue s + sumValueL s.children ∧ sumValue s = s.declared := by
  constructor
  · cases s with
    | node nm v ty cs => rfl
  · exact sumValue_eq_declared s

/-- Witness for C7 (amended) at the root of `overTree`. -/
theorem claim7_negative_self_witness :
    sumValue overTree = selfValue overTree + sumValueL overTree.children ∧
    sumValue overTree = overTree.declared :=
  claim7_negative_self overTree [] overTree rfl
    (by norm_num [overTree, selfValue, declSum, STree.declared])

theorem generateHash_congr {n1 n2 : Str}
    (h : n1.take (MAX_CHAR + 1) = n2.take (MAX_CHAR + 1)) :
    generateHash n1 = generateHash n2 := by
  have hnil : n1 = [] ↔ n2 = [] := by
    constructor
    · intro h1
      subst h1
      rcases List.take_eq_nil_iff.mp h.symm with h7 | hn
      · simp [MAX_CHAR] at h7
      · exact hn
    · intro h2
      subst h2
      rcases List.take_eq_nil_iff.mp h with h7 | hn
      · simp [MAX_CHAR] at h7
      · exact hn
  unfold generateHash
  by_cases h1 : n1 = []
  · rw [if_pos h1, if_pos (hnil.mp h1)]
  · rw [if_neg h1, if_neg (fun h2 => h1 (hnil.mpr h2)), h]

/-- C10.  `Color.colorHash` depends only on the category and on the
normalized prefix of the name: the segment after the last backtick,
truncated at the first opening parenthesis, of which only the first
`MAX_CHAR + 1 = 7` characters are hashed.  Any two names equal after this
normalization get the identical color string for every category. -/
theorem claim10_color_congruence (n1 n2 cat : Str)
    (h : (normalizeName n1).take (MAX_CHAR + 1) = (normalizeName n2).take (MAX_CHAR + 1)) :
    colorHash n1 cat = colorHash n2 cat := by
  have key : ∀ n : Str,
      (if n.isEmpty then (0 : ℚ) else generateHash (normalizeName n)) =
        generateHash (normalizeName n) := by
    intro n
    cases n with
    | nil => simp [normalizeName, splitOnChar, generateHash]
    | cons c t => simp [List.isEmpty]
  have hv : (if n1.isEmpty then (0 : ℚ) else generateHash (normalizeName n1)) =
      (if n2.isEmpty then (0 : ℚ) else generateHash (normalizeName n2)) := by
    rw [key n1, key n2]
    exact generateHash_congr h
  simp only [colorHash]
  rw [hv]

/-- Witness for C10: a name with a module segment and call-site suffix
normalizes to the same 7-character prefix as a plain name, and both get the
same color. -/
theorem claim10_color_congruence_witness :
    (normalizeName "ns\x60moduleAB(x)".toList).take (MAX_CHAR + 1) =
      (normalizeName "moduleAQQQ".toList).take (MAX_CHAR + 1) ∧
    colorHash "ns\x60moduleAB(x)".toList "Kernel".toList =
      colorHash "moduleAQQQ".toList "Kernel".toList :=
  ⟨by decide, claim10_color_congruence _ _ _ (by decide)⟩

/-- C6 (amended).  `getRectText` on a rectangle of pixel width `rectW` with
cached glyph width `L`: below the hide threshold (available width
`rectW - 2*2` under `MaxWidth = 80`, which covers zero and negative widths,
and reaches no division) the label is empty; when the estimated name width
fits strictly within the available width the label is the full name;
otherwise the label is a prefix of the name suffixed with a three-dot
ellipsis, and its estimated pixel width `length * L` stays within the
rectangle width provided the available width is at least the ellipsis's own
estimated width `3 * L` — for available widths smaller than `3 * L` the
emitted ellipsis label can exceed the rectangle (see the counterexample). -/
theorem claim6_label_fit (rectW L : ℚ) (name : Str) :
    (rectW - 2 * 2 < MaxWidth → getRectText rectW L name = []) ∧
    (MaxWidth ≤ rectW - 2 * 2 → (name.length : ℚ) * L < rectW - 2 * 2 →
      getRectText rectW L name = name) ∧
    (MaxWidth ≤ rectW - 2 * 2 → rectW - 2 * 2 ≤ (name.length : ℚ) * L →
      3 * L ≤ rectW - 2 * 2 →
      (∃ k, getRectText rectW L name = name.take k ++ "...".toList) ∧
      ((getRectText rectW L name).length : ℚ) * L ≤ rectW) := by
  refine ⟨?_, ?_, ?_⟩
  · intro h1
    simp only [getRectText]
    rw [if_pos h1]
  · intro h1 h2
    simp only [getRectText]
    rw [if_neg (not_lt.mpr h1), if_pos h2]
  · intro h1 h2 h3
    have h80 : (80 : ℚ) ≤ rectW - 2 * 2 := h1
    have hL : 0 < L := by
      rcases lt_or_le 0 L with h | h
      · exact h
      · exfalso
        have hlen : (0 : ℚ) ≤ (name.length : ℚ) := Nat.cast_nonneg _
        have hnp : (name.length : ℚ) * L ≤ 0 := mul_nonpos_of_nonneg_of_nonpos hlen h
        linarith
    have hq : (0 : ℚ) ≤ (rectW - 2 * 2) / L - 3 := by
      have h4 : (3 : ℚ) ≤ (rectW - 2 * 2) / L := (le_div_iff₀ hL).mpr (by linarith)
      linarith
    have htr : jsTrunc ((rectW - 2 * 2) / L - 3) = ⌊(rectW - 2 * 2) / L - 3⌋ := by
      unfold jsTrunc
      rw [if_pos hq]
    have hfl : (0 : Int) ≤ ⌊(rectW - 2 * 2) / L - 3⌋ := Int.floor_nonneg.mpr hq
    have heq : getRectText rectW L name =
        name.take (jsSliceEnd name.length ⌊(rectW - 2 * 2) / L - 3⌋) ++ "...".toList := by
      simp only [getRectText]
      rw [if_neg (not_lt.mpr h1), if_neg (not_lt.mpr h2)]
      simp only [jsSlice0]
      rw [htr]
    refine ⟨⟨jsSliceEnd name.length ⌊(rectW - 2 * 2) / L - 3⌋, heq⟩, ?_⟩
    rw [heq]
    have hslice : jsSliceEnd name.length ⌊(rectW - 2 * 2) / L - 3⌋ =
        min (⌊(rectW - 2 * 2) / L - 3⌋).toNat name.length := by
      unfold jsSliceEnd
      rw [if_neg (not_lt.mpr hfl)]
    have hlen3 : ("...".toList : Str).length = 3 := rfl
    rw [List.length_append, List.length_take, hslice, hlen3]
    have hfloor : ((⌊(rectW - 2 * 2) / L - 3⌋ : Int) : ℚ) ≤ (rectW - 2 * 2) / L - 3 :=
      Int.floor_le _
    have hm : ((min (min (⌊(rectW - 2 * 2) / L - 3⌋).toNat name.length) name.length : Nat) : ℚ)
        ≤ ((⌊(rectW - 2 * 2) / L - 3⌋ : Int) : ℚ) := by
      have hmin : min (min (⌊(rectW - 2 * 2) / L - 3⌋).toNat name.length) name.length
          ≤ (⌊(rectW - 2 * 2) / L - 3⌋).toNat := le_trans (min_le_left _ _) (min_le_left _ _)
      have h2 : ((min (min (⌊(rectW - 2 * 2) / L - 3⌋).toNat name.length) name.length : Nat) : ℚ)
          ≤ (((⌊(rectW - 2 * 2) / L - 3⌋).toNat : Nat) : ℚ) := Nat.cast_le.mpr hmin
      rwa [← Int.cast_natCast ((⌊(rectW - 2 * 2) / L - 3⌋).toNat),
        Int.toNat_of_nonneg hfl] at h2
    have hb : ((min (min (⌊(rectW - 2 * 2) / L - 3⌋).toNat name.length) name.length + 3 : Nat) : ℚ)
        ≤ (rectW - 2 * 2) / L := by
      rw [Nat.cast_add, Nat.cast_ofNat]
      linarith
    calc ((min (min (⌊(rectW - 2 * 2) / L - 3⌋).toNat name.length) name.length + 3 : Nat) : ℚ) * L
        ≤ ((rectW - 2 * 2) / L) * L := mul_le_mul_of_nonneg_right hb hL.le
      _ = rectW - 2 * 2 := div_mul_cancel₀ _ hL.ne'
      _ ≤ rectW := by linarith

/-- Witness for C6 (amended): a 30-character name in a 200-px rectangle with
10-px glyphs is truncated to a label whose estimated width stays within the
rectangle. -/
theorem claim6_label_fit_witness :
    ((getRectText 200 10 "abcdefghijklmnopqrstuvwxyz0123".toList).length : ℚ) * 10 ≤ 200 := by
  have hlen : ("abcdefghijklmnopqrstuvwxyz0123".toList).length = 30 := rfl
  exact (claim6_label_fit 200 10 "abcdefghijklmnopqrstuvwxyz0123".toList).2.2
    (by norm_num [MaxWidth]) (by rw [hlen]; norm_num) (by norm_num) |>.2

/-- C6 counterexample.  The claim requires every non-empty truncated label's
estimated pixel width to stay within the rectangle's pixel width.  With a
100-px rectangle (available width 96 ≥ MaxWidth), glyph width 40 and the
3-character name `abc` (estimated width 120), the truncation branch computes
`numOfLetters = 96/40 - 3 = -3/5`, truncates it to 0 and emits the bare
ellipsis `...` — a non-empty label of estimated width `3 * 40 = 120`,
exceeding the 100-px rectangle. -/
theorem claim6_counterexample :
    getRectText 100 40 "abc".toList = "...".toList ∧
    ¬ (((getRectText 100 40 "abc".toList).length : ℚ) * 40 ≤ 100) := by
  have hlen : ("abc".toList : Str).length = 3 := rfl
  have htr : jsTrunc ((100 - 2 * 2 : ℚ) / 40 - 3) = 0 := by
    unfold jsTrunc
    rw [if_neg (by norm_num)]
    norm_num
  have hval : getRectText 100 40 "abc".toList = "...".toList := by
    simp only [getRectText, hlen]
    rw [if_neg (by norm_num [MaxWidth]), if_neg (by norm_num), htr]
    rfl
  refine ⟨hval, ?_⟩
  rw [hval]
  norm_num

theorem nonnegTL_mem {cs : List STree} (h : nonnegTL cs) : ∀ c ∈ cs, nonnegT c := by
  induction cs with
  | nil => intro c hc; cases hc
  | cons c cs ih =>
    rw [nonnegTL] at h
    intro c' hc'
    rcases List.mem_cons.mp hc' with h1 | h1
    · exact h1 ▸ h.1
    · exact ih h.2 c' h1

theorem nonnegT_declared {t : STree} (h : nonnegT t) : 0 ≤ t.declared := by
  cases t with
  | node nm v ty cs =>
    rw [nonnegT] at h
    exact h.1

theorem nonnegT_sumValue {t : STree} (h : nonnegT t) : 0 ≤ sumValue t := by
  rw [sumValue_eq_declared]
  exact nonnegT_declared h

theorem nonnegT_children {nm : Str} {v : ℚ} {ty : Str} {cs : List STree}
    (h : nonnegT (.node nm v ty cs)) : ∀ c ∈ cs, nonnegT c := by
  rw [nonnegT] at h
  exact nonnegTL_mem h.2

theorem psum_zero (cs : List STree) : psum cs 0 = 0 := by
  simp [psum]

theorem psum_cons_succ (c : STree) (cs : List STree) (i : Nat) :
    psum (c :: cs) (i + 1) = sumValue c + psum cs i := by
  simp [psum, List.take_succ_cons]

theorem psum_succ_of_get {cs : List STree} {i : Nat} {c : STree} (h : cs[i]? = some c) :
    psum cs (i + 1) = psum cs i + sumValue c := by
  unfold psum
  rw [List.take_succ, h]
  simp

theorem psum_nonneg {cs : List STree} (h : ∀ c ∈ cs, 0 ≤ sumValue c) (i : Nat) :
    0 ≤ psum cs i := by
  unfold psum
  apply List.sum_nonneg
  intro x hx
  obtain ⟨c, hc, rfl⟩ := List.mem_map.mp hx
  exact h c (List.take_subset _ _ hc)

theorem psum_mono {cs : List STree} (h : ∀ c ∈ cs, 0 ≤ sumValue c) :
    ∀ {i j : Nat}, i ≤ j → psum cs i ≤ psum cs j := by
  induction cs with
  | nil => intro i j _; simp [psum]
  | cons c cs ih =>
    intro i j hij
    cases i with
    | zero =>
      rw [psum_zero]
      exact psum_nonneg h j
    | succ m =>
      cases j with
      | zero => omega
      | succ l =>
        rw [psum_cons_succ, psum_cons_succ]
        have hcs : ∀ c' ∈ cs, 0 ≤ sumValue c' := fun c' hc' => h c' (by simp [hc'])
        have := ih hcs (Nat.succ_le_succ_iff.mp hij)
        linarith

theorem layoutChildren_getElem? (dy n k : ℚ) (depth : Nat) (cy0 cy1 : ℚ) :
    ∀ (cs : List STree) (cx : ℚ) (i : Nat),
    (layoutChildren dy n k depth cy0 cy1 cx cs)[i]? =
      (cs[i]?).map (fun c =>
        layoutNode dy n c (depth + 1) (cx + k * psum cs i) (cx + k * psum cs (i + 1))
          cy0 cy1) := by
  intro cs
  induction cs with
  | nil => intro cx i; simp [layoutChildren]
  | cons c cs ih =>
    intro cx i
    cases i with
    | zero =>
      have e1 : cx + k * psum (c :: cs) 0 = cx := by
        rw [psum_zero]; ring
      have e2 : cx + k * psum (c :: cs) 1 = cx + sumValue c * k := by
        rw [psum_cons_succ, psum_zero]; ring
      simp only [layoutChildren, List.getElem?_cons_zero, Option.map_some', e1, e2]
    | succ m =>
      have e1 : cx + sumValue c * k + k * psum cs m = cx + k * psum (c :: cs) (m + 1) := by
        rw [psum_cons_succ]; ring
      have e2 : cx + sumValue c * k + k * psum cs (m + 1) = cx + k * psum (c :: cs) (m + 2) := by
        rw [psum_cons_succ]; ring
      simp only [layoutChildren, List.getElem?_cons_succ, ih, e1, e2]

theorem layoutNode_data_x0 (dy n : ℚ) (t : STree) (depth : Nat) {x0 x1 : ℚ} (y0 y1 : ℚ)
    (hx : x0 ≤ x1) : (layoutNode dy n t depth x0 x1 y0 y1).data.x0 = x0 := by
  cases t with
  | node nm v ty cs =>
    simp only [layoutNode, RTree.data]
    rw [if_neg (not_lt.mpr hx)]

theorem layoutNode_data_x1 (dy n : ℚ) (t : STree) (depth : Nat) {x0 x1 : ℚ} (y0 y1 : ℚ)
    (hx : x0 ≤ x1) : (layoutNode dy n t depth x0 x1 y0 y1).data.x1 = x1 := by
  cases t with
  | node nm v ty cs =>
    simp only [layoutNode, RTree.data]
    rw [if_neg (not_lt.mpr hx)]

theorem layoutNode_data_value (dy n : ℚ) (t : STree) (depth : Nat) (x0 x1 y0 y1 : ℚ) :
    (layoutNode dy n t depth x0 x1 y0 y1).data.value = sumValue t := by
  cases t with
  | node nm v ty cs => simp only [layoutNode, RTree.data]

theorem dataAt?_node_cons (d : RData) (cs : List RTree) (i : Nat) (q : Path) :
    dataAt? (RTree.node d cs) (i :: q) = (cs[i]?).bind (fun c => dataAt? c q) := by
  cases h : cs[i]? <;> simp [dataAt?, nodeAt?, h]

theorem dataAt?_layout_cons (dy n : ℚ) (nm : Str) (v : ℚ) (ty : Str) (cs : List STree)
    (depth : Nat) (x0 x1 y0 y1 : ℚ) (i : Nat) (q : Path) :
    dataAt? (layoutNode dy n (.node nm v ty cs) depth x0 x1 y0 y1) (i :: q) =
      (cs[i]?).bind (fun c =>
        dataAt? (layoutNode dy n c (depth + 1)
          (x0 + (if sumValue (STree.node nm v ty cs) = 0 then 0
            else (x1 - x0) / sumValue (STree.node nm v ty cs)) * psum cs i)
          (x0 + (if sumValue (STree.node nm v ty cs) = 0 then 0
            else (x1 - x0) / sumValue (STree.node nm v ty cs)) * psum cs (i + 1))
          (dy * ((depth : ℚ) + 1) / n) (dy * ((depth : ℚ) + 2) / n)) q) := by
  conv_lhs => rw [layoutNode]
  rw [dataAt?_node_cons, layoutChildren_getElem?]
  cases h : cs[i]? <;> simp [h]

theorem dataAt?_nil (t : RTree) : dataAt? t [] = some t.data := by
  cases t
  rfl

theorem layout_partInv_main (dy n : ℚ) :
    ∀ (q : Path) (t : STree) (depth : Nat) (x0 x1 y0 y1 : ℚ),
      nonnegT t → x0 ≤ x1 →
      ∀ dp, dataAt? (layoutNode dy n t depth x0 x1 y0 y1) q = some dp →
      ∀ i ci, dataAt? (layoutNode dy n t depth x0 x1 y0 y1) (q ++ [i]) = some ci →
        (i = 0 → ci.x0 = dp.x0) ∧ (0 ≤ ci.x1 - ci.x0) ∧
        (ci.x1 - ci.x0 =
          (if dp.value = 0 then 0 else (dp.x1 - dp.x0) * ci.value / dp.value)) ∧
        (∀ cj, dataAt? (layoutNode dy n t depth x0 x1 y0 y1) (q ++ [i + 1]) = some cj →
          ci.x1 = cj.x0) ∧
        (∀ j cj, i < j →
          dataAt? (layoutNode dy n t depth x0 x1 y0 y1) (q ++ [j]) = some cj →
          ci.x1 ≤ cj.x0) := by
  intro q
  induction q with
  | nil =>
    intro t depth x0 x1 y0 y1 hnn hx dp hdp i ci hci
    cases t with
    | node nm v ty cs =>
      rw [dataAt?_nil] at hdp
      have hdpd : dp = (layoutNode dy n (.node nm v ty cs) depth x0 x1 y0 y1).data :=
        (Option.some.inj hdp).symm
      rw [List.nil_append, dataAt?_layout_cons] at hci
      set S := sumValue (STree.node nm v ty cs) with hSdef
      set k := if S = 0 then 0 else (x1 - x0) / S with hkdef
      have hvnn : 0 ≤ S := nonnegT_sumValue hnn
      have hknn : 0 ≤ k := by
        rw [hkdef]
        by_cases hS : S = 0
        · rw [if_pos hS]
        · rw [if_neg hS]
          exact div_nonneg (sub_nonneg.mpr hx) hvnn
      have hcsnn : ∀ c ∈ cs, 0 ≤ sumValue c := fun c hc =>
        nonnegT_sumValue (nonnegT_children hnn c hc)
      have child_rec : ∀ (j : Nat) (c : STree) (cj : RData), cs[j]? = some c →
          dataAt? (layoutNode dy n c (depth + 1)
            (x0 + k * psum cs j) (x0 + k * psum cs (j + 1))
            (dy * ((depth : ℚ) + 1) / n) (dy * ((depth : ℚ) + 2) / n)) [] = some cj →
          cj.x0 = x0 + k * psum cs j ∧ cj.x1 = x0 + k * psum cs (j + 1) ∧
            cj.value = sumValue c := by
        intro j c cj hc hcj
        rw [dataAt?_nil] at hcj
        have hcjd : cj = (layoutNode dy n c (depth + 1)
            (x0 + k * psum cs j) (x0 + k * psum cs (j + 1))
            (dy * ((depth : ℚ) + 1) / n) (dy * ((depth : ℚ) + 2) / n)).data :=
          (Option.some.inj hcj).symm
        have hab : x0 + k * psum cs j ≤ x0 + k * psum cs (j + 1) := by
          have h1 := psum_mono hcsnn (Nat.le_succ j)
          have h2 := mul_le_mul_of_nonneg_left h1 hknn
          linarith
        rw [hcjd]
        exact ⟨layoutNode_data_x0 dy n c (depth + 1) _ _ hab,
          layoutNode_data_x1 dy n c (depth + 1) _ _ hab,
          layoutNode_data_value dy n c (depth + 1) _ _ _ _⟩
      cases hc : cs[i]? with
      | none =>
        rw [hc] at hci
        simp at hci
      | some c =>
        rw [hc] at hci
        rw [Option.some_bind] at hci
        obtain ⟨hx0i, hx1i, hvi⟩ := child_rec i c ci hc hci
        have hmem : c ∈ cs := List.getElem?_mem hc
        refine ⟨?_, ?_, ?_, ?_, ?_⟩
        · intro h0
          subst h0
          rw [hx0i, psum_zero, hdpd, layoutNode_data_x0 dy n _ depth y0 y1 hx]
          ring
        · rw [hx1i, hx0i, psum_succ_of_get hc]
          have h1 : 0 ≤ k * sumValue c := mul_nonneg hknn (hcsnn c hmem)
          ring_nf
          nlinarith [h1]
        · rw [hx1i, hx0i, hvi, psum_succ_of_get hc, hdpd,
            layoutNode_data_value dy n _ depth x0 x1 y0 y1,
            layoutNode_data_x0 dy n _ depth y0 y1 hx,
            layoutNode_data_x1 dy n _ depth y0 y1 hx, ← hSdef]
          by_cases hS : S = 0
          · rw [if_pos hS, hkdef, if_pos hS]
            ring
          · rw [if_neg hS, hkdef, if_neg hS]
            field_simp
            ring
        · intro cj hcj
          rw [List.nil_append, dataAt?_layout_cons, ← hSdef, ← hkdef] at hcj
          cases hc' : cs[i + 1]? with
          | none =>
            rw [hc'] at hcj
            simp at hcj
          | some c' =>
            rw [hc'] at hcj
            rw [Option.some_bind] at hcj
            obtain ⟨hx0j, _, _⟩ := child_rec (i + 1) c' cj hc' hcj
            rw [hx1i, hx0j]
        · intro j cj hij hcj
          rw [List.nil_append, dataAt?_layout_cons, ← hSdef, ← hkdef] at hcj
          cases hc' : cs[j]? with
          | none =>
            rw [hc'] at hcj
            simp at hcj
          | some c' =>
            rw [hc'] at hcj
            rw [Option.some_bind] at hcj
            obtain ⟨hx0j, _, _⟩ := child_rec j c' cj hc' hcj
            rw [hx1i, hx0j]
            have hmono := psum_mono hcsnn (show i + 1 ≤ j from hij)
            have h2 := mul_le_mul_of_nonneg_left hmono hknn
            linarith
  | cons j0 q ih =>
    intro t depth x0 x1 y0 y1 hnn hx dp hdp i ci hci
    cases t with
    | node nm v ty cs =>
      rw [dataAt?_layout_cons] at hdp
      rw [show (j0 :: q) ++ [i] = j0 :: (q ++ [i]) from rfl, dataAt?_layout_cons] at hci
      cases hc : cs[j0]? with
      | none =>
        rw [hc] at hdp
        simp at hdp
      | some c =>
        rw [hc] at hdp hci
        rw [Option.some_bind] at hdp hci
        have hvnn : 0 ≤ sumValue (STree.node nm v ty cs) := nonnegT_sumValue hnn
        have hknn : 0 ≤ (if sumValue (STree.node nm v ty cs) = 0 then 0
            else (x1 - x0) / sumValue (STree.node nm v ty cs)) := by
          by_cases hS : sumValue (STree.node nm v ty cs) = 0
          · rw [if_pos hS]
          · rw [if_neg hS]
            exact div_nonneg (sub_nonneg.mpr hx) hvnn
        have hcsnn : ∀ c' ∈ cs, 0 ≤ sumValue c' := fun c' hc' =>
          nonnegT_sumValue (nonnegT_children hnn c' hc')
        have hcnn : nonnegT c := nonnegT_children hnn c (List.getElem?_mem hc)
        have hab : x0 + (if sumValue (STree.node nm v ty cs) = 0 then 0
            else (x1 - x0) / sumValue (STree.node nm v ty cs)) * psum cs j0 ≤
            x0 + (if sumValue (STree.node nm v ty cs) = 0 then 0
            else (x1 - x0) / sumValue (STree.node nm v ty cs)) * psum cs (j0 + 1) := by
          have h1 := psum_mono hcsnn (Nat.le_succ j0)
          have h2 := mul_le_mul_of_nonneg_left h1 hknn
          linarith
        obtain ⟨c1, c2, c3, c4, c5⟩ :=
          ih c (depth + 1) _ _ _ _ hcnn hab dp hdp i ci hci
        refine ⟨c1, c2, c3, ?_, ?_⟩
        · intro cj hcj
          rw [show (j0 :: q) ++ [i + 1] = j0 :: (q ++ [i + 1]) from rfl,
            dataAt?_layout_cons, hc, Option.some_bind] at hcj
          exact c4 cj hcj
        · intro j cj hij hcj
          rw [show (j0 :: q) ++ [j] = j0 :: (q ++ [j]) from rfl,
            dataAt?_layout_cons, hc, Option.some_bind] at hcj
          exact c5 j cj hij hcj

theorem partInv_zoomTo (st : ZoomState) (p : Path) (h : PartInv st.tree) :
    PartInv (zoomTo st p).tree := by
  cases hf : dataAt? st.tree (resolveFocus st p) with
  | none =>
    rw [zoom_tree_none st p hf]
    exact h
  | some df =>
    intro q dp hdp i ci hci
    rw [dataAt?_zoomTo st p df hf] at hdp hci
    cases hq : dataAt? st.tree q with
    | none =>
      rw [hq] at hdp
      simp at hdp
    | some dp0 =>
      rw [hq, Option.map_some'] at hdp
      have hdp' : dp = zoomUpd df.x0 (resolveFocus st p) q dp0 :=
        (Option.some.inj hdp).symm
      cases hqi : dataAt? st.tree (q ++ [i]) with
      | none =>
        rw [hqi] at hci
        simp at hci
      | some ci0 =>
        rw [hqi, Option.map_some'] at hci
        have hci' : ci = zoomUpd df.x0 (resolveFocus st p) (q ++ [i]) ci0 :=
          (Option.some.inj hci).symm
        obtain ⟨o1, o2, o3, o4, o5⟩ := h q dp0 hq i ci0 hqi
        obtain ⟨pdx0, pdx1, _, _, _, _, _, pdval, _⟩ :=
          zoomUpd_fields df.x0 (resolveFocus st p) q dp0
        obtain ⟨pcx0, pcx1, _, _, _, _, _, pcval, _⟩ :=
          zoomUpd_fields df.x0 (resolveFocus st p) (q ++ [i]) ci0
        refine ⟨?_, ?_, ?_, ?_, ?_⟩
        · intro h0
          rw [hci', hdp', pcx0, pdx0, o1 h0]
        · rw [hci', pcx0, pcx1]
          linarith
        · rw [hci', hdp', pcx0, pcx1, pcval, pdx0, pdx1, pdval]
          have e1 : ci0.x1 - df.x0 - (ci0.x0 - df.x0) = ci0.x1 - ci0.x0 := by ring
          have e2 : dp0.x1 - df.x0 - (dp0.x0 - df.x0) = dp0.x1 - dp0.x0 := by ring
          rw [e1, e2]
          exact o3
        · intro cj hcj
          rw [dataAt?_zoomTo st p df hf] at hcj
          cases hqj : dataAt? st.tree (q ++ [i + 1]) with
          | none =>
            rw [hqj] at hcj
            simp at hcj
          | some cj0 =>
            rw [hqj, Option.map_some'] at hcj
            have hcj' : cj = zoomUpd df.x0 (resolveFocus st p) (q ++ [i + 1]) cj0 :=
              (Option.some.inj hcj).symm
            obtain ⟨qx0, _, _⟩ := zoomUpd_fields df.x0 (resolveFocus st p) (q ++ [i + 1]) cj0
            rw [hci', hcj', pcx1, qx0, o4 cj0 hqj]
        · intro j cj hij hcj
          rw [dataAt?_zoomTo st p df hf] at hcj
          cases hqj : dataAt? st.tree (q ++ [j]) with
          | none =>
            rw [hqj] at hcj
            simp at hcj
          | some cj0 =>
            rw [hqj, Option.map_some'] at hcj
            have hcj' : cj = zoomUpd df.x0 (resolveFocus st p) (q ++ [j]) cj0 :=
              (Option.some.inj hcj).symm
            obtain ⟨qx0, _, _⟩ := zoomUpd_fields df.x0 (resolveFocus st p) (q ++ [j]) cj0
            rw [hci', hcj', pcx1, qx0]
            have := o5 j cj0 hij hqj
            linarith

/-- C3 (amended).  For every input tree with nonnegative declared values and
nonnegative layout width, the initial `d3.partition` layout satisfies, at
every node: the children start at the parent's `x0`, tile consecutively with
pairwise-disjoint intervals of nonnegative width, and each child's width is
the parent's width times `value(child)/value(parent)` (zero-width children
when the parent's computed value is 0).  The children therefore cover the
left-aligned sub-interval of the parent whose length is the parent width
times the children's value fraction — which equals the parent's interval
exactly when the parent's self value is zero, not in general (see the
counterexample).  Every `zoomTo` preserves the invariant, since it only
translates all `x`-coordinates by one constant. -/
theorem claim3_partition :
    (∀ (dx dy : ℚ) (t : STree), nonnegT t → 0 ≤ dx → PartInv (d3partition dx dy t)) ∧
    (∀ (st : ZoomState) (p : Path), PartInv st.tree → PartInv (zoomTo st p).tree) := by
  constructor
  · intro dx dy t hnn hdx
    intro q dp hdp i ci hci
    simp only [d3partition] at hdp hci
    exact layout_partInv_main dy ((heightS t : ℚ) + 1) q t 0 0 dx 0
      (dy / ((heightS t : ℚ) + 1)) hnn hdx dp hdp i ci hci
  · exact partInv_zoomTo

/-- Witness for C3 (amended): the invariant holds on the layout of `gapTree`
at width 10 and is preserved by a zoom onto its child. -/
theorem claim3_partition_witness :
    PartInv (d3partition 10 2 gapTree) ∧
    PartInv (zoomTo ⟨d3partition 10 2 gapTree, [], 10⟩ [0]).tree := by
  have h1 := claim3_partition.1 10 2 gapTree
    (by norm_num [gapTree, nonnegT, nonnegTL]) (by norm_num)
  exact ⟨h1, claim3_partition.2 ⟨d3partition 10 2 gapTree, [], 10⟩ [0] h1⟩

/-- C3 counterexample.  The claim as stated requires the union of the
children's intervals to equal the parent's interval (up to floating-point
tolerance).  In the layout of `gapTree` (`root` declares 10, its only child
declares 4, layout width 10) the root spans `[0,10]` but its only child spans
`[0,4]`: d3's dicing left-aligns children and leaves the parent's positive
self value `(10-4)/10` of the interval uncovered — a gap of 6 units out of
10, not a rounding artifact. -/
theorem claim3_counterexample :
    (dataAt? gapLayout []).map RData.x0 = some 0 ∧
    (dataAt? gapLayout []).map RData.x1 = some 10 ∧
    (dataAt? gapLayout [0]).map RData.x0 = some 0 ∧
    (dataAt? gapLayout [0]).map RData.x1 = some 4 ∧
    dataAt? gapLayout [1] = none ∧
    (4 : ℚ) ≠ 10 := by
  norm_num [gapLayout, gapTree, d3partition, heightS, heightLS, layoutNode,
    layoutChildren, sumValue, sumValueL, selfValue, declSum, STree.declared,
    dataAt?, nodeAt?, RTree.data]

end FlameChart
